import Mathlib

/-!
Verification of the category progress state machine, the stream line decoder
and the record pipeline of `src/frontend/app.js` (the live-scan dashboard).

The shallow embedding below is translated from the source:

* the catalog configuration (`categoryOrder` / `expectedCategories`,
  source lines 562-656),
* the per-category session state and its mutators `activateCategory`
  (lines 782-806), `finishCategory` (lines 808-826), `updateCard`
  (lines 828-891) and `finalizeStatus` (lines 1030-1040),
* the chunk loop of `handleStream` (lines 893-931): the incremental UTF-8
  text decoder (`TextDecoder` with `stream: true`), the newline splitter
  with its carry-over buffer, and the tolerant JSON line parser,
* the elapsed-time formatter `formatDuration` (lines 1021-1028).

Presentation-only DOM state (card output text, notes, CSS class lists,
progress-bar widths) is not part of the state; a category's *phase* is the
status text the code assigns to its card and summary badge ("Not started" /
"Running" / "Done" / "Error"), and the displayed progress percentage is the
derived quantity computed at line 862.  Calls to `Date.now()` are modelled by
an explicit `now : Nat` argument; only the presence of a timestamp (never its
value) matters to any property below.
-/

namespace MacCleaner

/-- Displayed phase of a category: the `status.textContent` values the source
assigns ("Not started", "Running", "Done", "Error"). -/
inductive Phase where
  | notStarted
  | running
  | done
  | error
  deriving DecidableEq, Repr

/-- Tone argument of `setStatus` (source line 662). -/
inductive Tone where
  | default
  | success
  | error
  deriving DecidableEq, Repr

/-- Catalog configuration: category ids in order, each with its expected
sub-command count (`categoryOrder` paired with `expectedCategories[cat].length`
from the source). -/
abbrev Catalog := List (String × Nat)

/-- The category names in catalog order (`categoryOrder`, lines 641-656). -/
def catNames (cat : Catalog) : List String :=
  cat.map Prod.fst

/-- The concrete catalog of the source: `categoryOrder` with the length of
each `expectedCategories` entry. -/
def macCatalog : Catalog :=
  [("snapshots", 2), ("apfs", 1), ("virtual_memory", 2), ("sleep", 1),
   ("caches", 2), ("developer_data", 4), ("homebrew", 3),
   ("package_artifacts", 4), ("docker", 2), ("backups", 1), ("photos", 1),
   ("media_assets", 3), ("purgeable", 1), ("universal", 3)]

/-- Mutable session state: the module-level variables `failureCount`,
`activeCategoryIndex`, `categoryTotals`, `categoryCompleted`, `startTimes`,
`endTimes`, plus the per-category displayed phase. -/
structure SessionState where
  failureCount : Nat
  activeCategoryIndex : Nat
  categoryTotals : String → Option Nat
  categoryCompleted : String → Option Nat
  startTimes : String → Option Nat
  endTimes : String → Option Nat
  phase : String → Phase

/-- Point update of a map-like field. -/
def updF {β : Type} (f : String → β) (c : String) (v : β) : String → β :=
  fun x => if x = c then v else f x

/-- One parsed scan record, keeping exactly the fields the tracker logic
reads: `category`, `status`, `returncode`.  (`command` / `stdout` / `stderr` /
`note` feed only the presentation text that is not modelled.)  `none` models
an absent (or non-string / non-number) field. -/
structure ScanRecord where
  category : Option String
  status : Option String
  returncode : Option ℚ
  deriving DecidableEq, Repr

/-- Models `result.category || "generic"` (line 829): an absent — or falsy, i.e.
empty — category string falls back to the sentinel. -/
def resolveCategory (r : ScanRecord) : String :=
  match r.category with
  | some c => if c = "" then "generic" else c
  | none => "generic"

/-- The success criterion of line 864:
`result.status === "ok" || result.returncode === 0`. -/
def recordSucceeds (r : ScanRecord) : Prop :=
  r.status = some "ok" ∨ r.returncode = some 0

instance (r : ScanRecord) : Decidable (recordSucceeds r) := by
  unfold recordSucceeds; infer_instance

/-- Models `const isError = !(result.status === "ok" || result.returncode === 0)`
(line 864). -/
def isErrorRecord (r : ScanRecord) : Bool :=
  ! (decide (recordSucceeds r))

/-- Models `categoryOrder.indexOf(category)`, as `none` instead of `-1`
(lines 836 and 875). -/
def catIdx (cat : Catalog) (c : String) : Option Nat :=
  (catNames cat).findIdx? (fun n => decide (n = c))

/-- Source `activateCategory` (lines 782-806): a no-op on a falsy name or on a
category that already has a start time; otherwise records the start time and
shows the category as Running. -/
def activateCategory (now : Nat) (category : String) (s : SessionState) :
    SessionState :=
  if category = "" ∨ (s.startTimes category).isSome then s
  else
    { s with
      startTimes := updF s.startTimes category (some now)
      phase := updF s.phase category Phase.running }

/-- Source `finishCategory` (lines 808-826): records the end time once and overwrites
the displayed phase with Done or Error. -/
def finishCategory (now : Nat) (category : String) (isError : Bool)
    (s : SessionState) : SessionState :=
  if category = "" then s
  else
    { s with
      endTimes :=
        if (s.endTimes category).isSome then s.endTimes
        else updF s.endTimes category (some now)
      phase :=
        updF s.phase category (if isError then Phase.error else Phase.done) }

/-- Lines 830-833: lazily create `categoryTotals` / `categoryCompleted`
entries (`total = 1`) for a category the maps have never seen. -/
def ensureEntry (c : String) (s : SessionState) : SessionState :=
  if (s.categoryTotals c).isNone then
    { s with
      categoryTotals := updF s.categoryTotals c (some 1)
      categoryCompleted := updF s.categoryCompleted c (some 0) }
  else s

/-- The fast-forward loop of lines 838-841: force every catalog category with
index in `[a, p)` to Done. -/
def fastForwardFinish (cat : Catalog) (now : Nat) (a p : Nat)
    (s : SessionState) : SessionState :=
  (List.range' a (p - a)).foldl
    (fun st i => finishCategory now (((catNames cat).get? i).getD "") false st)
    s

/-- The category-transition block of lines 835-847: fast-forward to a later
catalog category, or directly activate an unknown category that has not
started. -/
def categoryTransition (cat : Catalog) (now : Nat) (c : String)
    (s : SessionState) : SessionState :=
  match catIdx cat c with
  | some p =>
      if s.activeCategoryIndex < p then
        activateCategory now c
          { fastForwardFinish cat now s.activeCategoryIndex p s with
            activeCategoryIndex := p }
      else s
  | none =>
      if (s.startTimes c).isNone then activateCategory now c s else s

/-- Models `categoryTotals.get(category) || 1` (line 859): an absent — or zero,
i.e. falsy — total reads as 1. -/
def totalOf (s : SessionState) (c : String) : Nat :=
  match s.categoryTotals c with
  | some t => if t = 0 then 1 else t
  | none => 1

/-- Models `categoryCompleted.get(category) || 0` (line 860). -/
def completedOf (s : SessionState) (c : String) : Nat :=
  (s.categoryCompleted c).getD 0

/-- Source `updateCard` (lines 828-891), the core transition applied once per
successfully parsed record. -/
def updateCard (cat : Catalog) (now : Nat) (s : SessionState)
    (r : ScanRecord) : SessionState :=
  let c := resolveCategory r
  let s1 := ensureEntry c s
  let s2 := categoryTransition cat now c s1
  let total := totalOf s2 c
  let doneNext := completedOf s2 c + 1
  let isErr := isErrorRecord r
  let s3 := if isErr then { s2 with failureCount := s2.failureCount + 1 } else s2
  let s4 := { s3 with categoryCompleted := updF s3.categoryCompleted c (some doneNext) }
  if total ≤ doneNext then
    let s5 := finishCategory now c isErr s4
    let nextIndex := match catIdx cat c with | some p => p + 1 | none => 0
    if nextIndex < (catNames cat).length then
      activateCategory now (((catNames cat).get? nextIndex).getD "")
        { s5 with activeCategoryIndex := nextIndex }
    else s5
  else if isErr then { s4 with phase := updF s4.phase c Phase.error }
  else { s4 with phase := updF s4.phase c Phase.running }

/-- The seeded state after `resetStream` / `seedCards` (lines 672-695 and
981-992): every catalog category present with its expected total, zero
completed, phase Not started, no timestamps, zero failures, active index 0. -/
def initialSession (cat : Catalog) : SessionState where
  failureCount := 0
  activeCategoryIndex := 0
  categoryTotals := fun c => (cat.find? (fun e => decide (e.1 = c))).map Prod.snd
  categoryCompleted := fun c =>
    if (cat.find? (fun e => decide (e.1 = c))).isSome then some 0 else none
  startTimes := fun _ => none
  endTimes := fun _ => none
  phase := fun _ => Phase.notStarted

/-- The fresh session at stream start (`startStreaming`, lines 941-949):
reset, then immediately activate the first catalog category. -/
def startSession (now : Nat) (cat : Catalog) : SessionState :=
  match catNames cat with
  | [] => initialSession cat
  | c0 :: _ => activateCategory now c0 (initialSession cat)

/-- Source `finalizeStatus` (lines 1030-1040): choose the overall banner from
`failureCount`, then force-mark the active catalog category finished (Done)
if it has no end time yet.  Returns the new state with the banner text and
tone passed to `setStatus`. -/
def finalizeStatus (cat : Catalog) (now : Nat) (s : SessionState) :
    SessionState × String × Tone :=
  let banner : String × Tone :=
    if 0 < s.failureCount then
      ("Completed with " ++ toString s.failureCount ++ " error(s)", Tone.error)
    else
      ("All categories finished", Tone.success)
  match (catNames cat).get? s.activeCategoryIndex with
  | some c =>
      if c ≠ "" ∧ (s.endTimes c).isNone then (finishCategory now c false s, banner)
      else (s, banner)
  | none => (s, banner)

/-- The derived progress percentage of line 862:
`Math.min(100, (doneNext / total) * 100)`, read off the state after the
update (where `categoryCompleted` holds `doneNext`). -/
def displayedPercent (s : SessionState) (c : String) : ℚ :=
  min 100 ((completedOf s c : ℚ) / (totalOf s c : ℚ) * 100)

/-- Source `formatDuration` (lines 1021-1028).  The one-decimal seconds value and
the rounded whole seconds are computed here by exact round-half-up integer
arithmetic on milliseconds; the source computes them through IEEE-754
`toFixed`, which agrees except on ties of `toFixed(1)` (ms ≡ 50 mod 100),
where the binary representation decides the direction. -/
def formatDuration (ms : Nat) : String :=
  if ms < 1000 then toString ms ++ "ms"
  else if ms < 60000 then
    toString ((ms + 50) / 100 / 10) ++ "." ++ toString ((ms + 50) / 100 % 10) ++ "s"
  else
    toString (ms / 60000) ++ "m " ++ toString ((ms % 60000 + 500) / 1000) ++ "s"

/-! ### The incremental text decoder

`handleStream` (lines 893-931) decodes each received chunk with a single
stateful `TextDecoder` (`stream: true`), so a multi-byte UTF-8 sequence split
across chunk boundaries is carried over and completed by the next chunk.
`decodeLoop` models that decoder over byte lists: it emits the decoded
characters of the longest complete prefix and returns the trailing incomplete
sequence as the carry-over.  On bytes that can never start or continue a valid
sequence it emits U+FFFD (only reachable on invalid input, which the
chunk-invariance property excludes by hypothesis). -/

/-- The standard 1-4 byte UTF-8 encoding of one scalar value. -/
def utf8EncodeChar (ch : Char) : List Nat :=
  let n := ch.toNat
  if n < 0x80 then [n]
  else if n < 0x800 then [0xC0 + n / 64, 0x80 + n % 64]
  else if n < 0x10000 then [0xE0 + n / 4096, 0x80 + n / 64 % 64, 0x80 + n % 64]
  else [0xF0 + n / 262144, 0x80 + n / 4096 % 64, 0x80 + n / 64 % 64, 0x80 + n % 64]

/-- UTF-8 encoding of a character sequence. -/
def utf8Encode (cs : List Char) : List Nat :=
  (cs.map utf8EncodeChar).flatten

/-- Continuation byte test (`10xxxxxx`). -/
def isCont (b : Nat) : Bool :=
  0x80 ≤ b && b < 0xC0

/-- The replacement character U+FFFD. -/
def replChar : Char :=
  Char.ofNat 0xFFFD

/-- Result of one decoder step: a decoded character plus the remaining
bytes, or the whole input held back as an incomplete trailing sequence. -/
inductive DecodeStep where
  | emit (c : Char) (rest : List Nat)
  | hold (pending : List Nat)

/-- One decoder step on the front of the byte list. -/
def decodeStep : List Nat → DecodeStep
  | [] => DecodeStep.hold []
  | b :: bs =>
    if b < 0x80 then DecodeStep.emit (Char.ofNat b) bs
    else if b < 0xC0 then DecodeStep.emit replChar bs
    else if b < 0xE0 then
      match bs with
      | [] => DecodeStep.hold [b]
      | b1 :: bs1 =>
        if isCont b1 then DecodeStep.emit (Char.ofNat ((b - 0xC0) * 64 + (b1 - 0x80))) bs1
        else DecodeStep.emit replChar bs
    else if b < 0xF0 then
      match bs with
      | [] => DecodeStep.hold [b]
      | [b1] =>
        if isCont b1 then DecodeStep.hold [b, b1]
        else DecodeStep.emit replChar bs
      | b1 :: b2 :: bs2 =>
        if isCont b1 && isCont b2 then
          DecodeStep.emit (Char.ofNat ((b - 0xE0) * 4096 + (b1 - 0x80) * 64 + (b2 - 0x80))) bs2
        else DecodeStep.emit replChar bs
    else if b < 0xF8 then
      match bs with
      | [] => DecodeStep.hold [b]
      | [b1] =>
        if isCont b1 then DecodeStep.hold [b, b1]
        else DecodeStep.emit replChar bs
      | [b1, b2] =>
        if isCont b1 && isCont b2 then DecodeStep.hold [b, b1, b2]
        else DecodeStep.emit replChar bs
      | b1 :: b2 :: b3 :: bs3 =>
        if isCont b1 && isCont b2 && isCont b3 then
          DecodeStep.emit
            (Char.ofNat ((b - 0xF0) * 262144 + (b1 - 0x80) * 4096 + (b2 - 0x80) * 64 + (b3 - 0x80)))
            bs3
        else DecodeStep.emit replChar bs
    else DecodeStep.emit replChar bs

set_option maxRecDepth 4096 in
/-- An emitting step always consumes at least one byte. -/
theorem decodeStep_emit_length {bs rest : List Nat} {c : Char}
    (h : decodeStep bs = DecodeStep.emit c rest) : rest.length < bs.length := by
  unfold decodeStep at h
  repeat' split at h
  all_goals cases h
  all_goals simp
  all_goals omega

/-- One pass of the incremental decoder: decoded characters plus the
incomplete trailing bytes kept for the next chunk. -/
def decodeLoop (bs : List Nat) : List Char × List Nat :=
  match h : decodeStep bs with
  | DecodeStep.hold p => ([], p)
  | DecodeStep.emit c rest => (c :: (decodeLoop rest).1, (decodeLoop rest).2)
  termination_by bs.length
  decreasing_by exact decodeStep_emit_length h

/-- A byte list the decoder holds back entirely: the carry-over states. -/
def pendingOnly (bs : List Nat) : Prop :=
  decodeLoop bs = ([], bs)

/-! ### The newline splitter and JS `trim` -/

/-- Models `buffer.split("\n")` followed by `buffer = lines.pop() || ""`
(lines 903-904): the complete lines and the retained partial line. -/
def splitLinesJs : List Char → List (List Char) × List Char
  | [] => ([], [])
  | ch :: cs =>
    let r := splitLinesJs cs
    if ch = '\n' then ([] :: r.1, r.2)
    else
      match r.1 with
      | [] => ([], ch :: r.2)
      | l :: ls => ((ch :: l) :: ls, r.2)

/-- The ECMAScript WhiteSpace / LineTerminator set used by `String.trim`. -/
def isJsSpace (ch : Char) : Bool :=
  ch.toNat = 0x09 || ch.toNat = 0x0A || ch.toNat = 0x0B || ch.toNat = 0x0C ||
  ch.toNat = 0x0D || ch.toNat = 0x20 || ch.toNat = 0xA0 || ch.toNat = 0x1680 ||
  (0x2000 ≤ ch.toNat && ch.toNat ≤ 0x200A) || ch.toNat = 0x2028 ||
  ch.toNat = 0x2029 || ch.toNat = 0x202F || ch.toNat = 0x205F ||
  ch.toNat = 0x3000 || ch.toNat = 0xFEFF

/-- Models `line.trim()`. -/
def trimJs (cs : List Char) : List Char :=
  ((cs.dropWhile isJsSpace).reverse.dropWhile isJsSpace).reverse

/-- The chunk loop of `handleStream` (lines 896-931) reduced to the text it
hands to `JSON.parse`: per chunk, decode with carry-over, append to the line
buffer, split off complete lines, and forward each trimmed non-empty line;
when the stream ends, forward the remaining buffer if its trim is non-empty
(the source passes that final buffer untrimmed, so it is emitted raw here). -/
def processChunks : List Nat → List Char → List (List Nat) → List (List Char)
  | _, buf, [] => if trimJs buf = [] then [] else [buf]
  | pend, buf, chunk :: chunks =>
    let d := decodeLoop (pend ++ chunk)
    let r := splitLinesJs (buf ++ d.1)
    ((r.1.map trimJs).filter (fun l => decide (l ≠ []))) ++ processChunks d.2 r.2 chunks

/-- The lines a whole character stream denotes: every `"\n"`-separated
segment, trimmed, empty ones dropped (the final segment counted the same
way). -/
def refLines (cs : List Char) : List (List Char) :=
  let r := splitLinesJs cs
  ((r.1.map trimJs).filter (fun l => decide (l ≠ []))) ++
    (if trimJs r.2 = [] then [] else [trimJs r.2])

/-! ### The tolerant JSON line parser

`JSON.parse` (line 909) modelled over character lists.  Numbers are exact
rationals, object fields keep source order (a duplicated key reads as its
last occurrence, as in JS).  Unpaired `\u` surrogate escapes decode to
U+FFFD (JS would keep a lone UTF-16 surrogate, which a scalar-value `Char`
cannot carry). -/

inductive Json where
  | null
  | bool (b : Bool)
  | num (q : ℚ)
  | str (s : String)
  | arr (elements : List Json)
  | obj (members : List (String × Json))

/-- The left-brace character. -/
def lbrace : Char :=
  Char.ofNat 0x7B

/-- The right-brace character. -/
def rbrace : Char :=
  Char.ofNat 0x7D

/-- JSON insignificant whitespace. -/
def jsonWs (ch : Char) : Bool :=
  ch = ' ' || ch = '\t' || ch = '\n' || ch = '\r'

/-- Skip insignificant whitespace. -/
def skipWs (cs : List Char) : List Char :=
  cs.dropWhile jsonWs

/-- Decimal digit test. -/
def isDigitCh (ch : Char) : Bool :=
  '0' ≤ ch && ch ≤ '9'

/-- Value of a decimal digit string. -/
def digitsVal (ds : List Char) : Nat :=
  ds.foldl (fun a d => a * 10 + (d.toNat - 48)) 0

/-- Optional fraction part; its rational value and the remaining input. -/
def parseFrac : List Char → Option (ℚ × List Char)
  | '.' :: t =>
    let fd := t.takeWhile isDigitCh
    if fd = [] then none
    else some ((digitsVal fd : ℚ) / (10 : ℚ) ^ fd.length, t.dropWhile isDigitCh)
  | cs => some (0, cs)

/-- Optional exponent part as a multiplier. -/
def parseExp : List Char → Option (ℚ × List Char)
  | [] => some (1, [])
  | ch :: t =>
    if ch = 'e' ∨ ch = 'E' then
      let signed : Bool × List Char :=
        match t with
        | '-' :: u => (true, u)
        | '+' :: u => (false, u)
        | _ => (false, t)
      let ed := signed.2.takeWhile isDigitCh
      if ed = [] then none
      else
        some (if signed.1 then (1 : ℚ) / (10 : ℚ) ^ digitsVal ed else (10 : ℚ) ^ digitsVal ed,
              signed.2.dropWhile isDigitCh)
    else some (1, ch :: t)

/-- JSON number grammar `-?(0|[1-9][0-9]*)(.[0-9]+)?([eE][+-]?[0-9]+)?`. -/
def parseNum (cs : List Char) : Option (ℚ × List Char) :=
  let signed : ℚ × List Char :=
    match cs with
    | '-' :: t => (-1, t)
    | _ => (1, cs)
  match signed.2 with
  | [] => none
  | d :: _ =>
    if isDigitCh d then
      let ids := signed.2.takeWhile isDigitCh
      if 1 < ids.length ∧ ids.head? = some '0' then none
      else
        match parseFrac (signed.2.dropWhile isDigitCh) with
        | none => none
        | some (f, r2) =>
          match parseExp r2 with
          | none => none
          | some (m, r3) => some (signed.1 * ((digitsVal ids : ℚ) + f) * m, r3)
    else none

/-- Value of a hex digit. -/
def hexDigit (ch : Char) : Option Nat :=
  if '0' ≤ ch ∧ ch ≤ '9' then some (ch.toNat - 48)
  else if 'a' ≤ ch ∧ ch ≤ 'f' then some (ch.toNat - 97 + 10)
  else if 'A' ≤ ch ∧ ch ≤ 'F' then some (ch.toNat - 65 + 10)
  else none

/-- Value of four hex digits. -/
def hex4 (a b c d : Char) : Option Nat := do
  let a' ← hexDigit a
  let b' ← hexDigit b
  let c' ← hexDigit c
  let d' ← hexDigit d
  pure (((a' * 16 + b') * 16 + c') * 16 + d')

/-- Body of a JSON string after the opening quote (fuel-bounded: every step
consumes input, so the caller's `length + 1` fuel always suffices): content
characters and the input after the closing quote. -/
def parseStrBodyF : Nat → List Char → Option (List Char × List Char)
  | 0, _ => none
  | _, [] => none
  | fuel + 1, ch :: t =>
    if ch = '"' then some ([], t)
    else if ch = '\\' then
      match t with
      | [] => none
      | e :: t1 =>
        if e = '"' then (parseStrBodyF fuel t1).map (fun p => ('"' :: p.1, p.2))
        else if e = '\\' then (parseStrBodyF fuel t1).map (fun p => ('\\' :: p.1, p.2))
        else if e = '/' then (parseStrBodyF fuel t1).map (fun p => ('/' :: p.1, p.2))
        else if e = 'b' then (parseStrBodyF fuel t1).map (fun p => (Char.ofNat 8 :: p.1, p.2))
        else if e = 'f' then (parseStrBodyF fuel t1).map (fun p => (Char.ofNat 12 :: p.1, p.2))
        else if e = 'n' then (parseStrBodyF fuel t1).map (fun p => ('\n' :: p.1, p.2))
        else if e = 'r' then (parseStrBodyF fuel t1).map (fun p => ('\r' :: p.1, p.2))
        else if e = 't' then (parseStrBodyF fuel t1).map (fun p => ('\t' :: p.1, p.2))
        else if e = 'u' then
          match t1 with
          | h1 :: h2 :: h3 :: h4 :: t2 =>
            match hex4 h1 h2 h3 h4 with
            | none => none
            | some n =>
              if 0xD800 ≤ n ∧ n < 0xDC00 then
                match t2 with
                | '\\' :: 'u' :: g1 :: g2 :: g3 :: g4 :: t3 =>
                  match hex4 g1 g2 g3 g4 with
                  | some m =>
                    if 0xDC00 ≤ m ∧ m < 0xE000 then
                      (parseStrBodyF fuel t3).map
                        (fun p =>
                          (Char.ofNat (0x10000 + (n - 0xD800) * 1024 + (m - 0xDC00)) :: p.1, p.2))
                    else (parseStrBodyF fuel t2).map (fun p => (replChar :: p.1, p.2))
                  | none => (parseStrBodyF fuel t2).map (fun p => (replChar :: p.1, p.2))
                | _ => (parseStrBodyF fuel t2).map (fun p => (replChar :: p.1, p.2))
              else if 0xDC00 ≤ n ∧ n < 0xE000 then
                (parseStrBodyF fuel t2).map (fun p => (replChar :: p.1, p.2))
              else (parseStrBodyF fuel t2).map (fun p => (Char.ofNat n :: p.1, p.2))
          | _ => none
        else none
    else if ch.toNat < 0x20 then none
    else (parseStrBodyF fuel t).map (fun p => (ch :: p.1, p.2))

/-- Body of a JSON string after the opening quote. -/
def parseStrBody (cs : List Char) : Option (List Char × List Char) :=
  parseStrBodyF (cs.length + 1) cs

mutual

/-- JSON value parser (fuel-bounded; `jsonParse` supplies enough fuel for
any input it is called on). -/
def parseVal : Nat → List Char → Option (Json × List Char)
  | 0, _ => none
  | fuel + 1, cs =>
    match skipWs cs with
    | [] => none
    | ch :: t =>
      if ch = lbrace then
        let u := skipWs t
        if u.head? = some rbrace then some (Json.obj [], u.tail)
        else (parseMembers fuel u).map (fun p => (Json.obj p.1, p.2))
      else if ch = '[' then
        let u := skipWs t
        if u.head? = some ']' then some (Json.arr [], u.tail)
        else (parseElements fuel u).map (fun p => (Json.arr p.1, p.2))
      else if ch = '"' then
        (parseStrBody t).map (fun p => (Json.str (String.mk p.1), p.2))
      else if ch = 't' then
        match t with
        | 'r' :: 'u' :: 'e' :: t2 => some (Json.bool true, t2)
        | _ => none
      else if ch = 'f' then
        match t with
        | 'a' :: 'l' :: 's' :: 'e' :: t2 => some (Json.bool false, t2)
        | _ => none
      else if ch = 'n' then
        match t with
        | 'u' :: 'l' :: 'l' :: t2 => some (Json.null, t2)
        | _ => none
      else (parseNum (ch :: t)).map (fun p => (Json.num p.1, p.2))

/-- One or more `"key": value` members, up to the closing brace. -/
def parseMembers : Nat → List Char → Option (List (String × Json) × List Char)
  | 0, _ => none
  | fuel + 1, cs =>
    match skipWs cs with
    | [] => none
    | ch :: t =>
      if ch = '"' then
        match parseStrBody t with
        | none => none
        | some (key, r1) =>
          match skipWs r1 with
          | ':' :: r2 =>
            match parseVal fuel r2 with
            | none => none
            | some (v, r3) =>
              match skipWs r3 with
              | [] => none
              | ch2 :: r4 =>
                if ch2 = ',' then
                  (parseMembers fuel r4).map (fun p => ((String.mk key, v) :: p.1, p.2))
                else if ch2 = rbrace then some ([(String.mk key, v)], r4)
                else none
          | _ => none
      else none

/-- One or more array elements, up to the closing bracket. -/
def parseElements : Nat → List Char → Option (List Json × List Char)
  | 0, _ => none
  | fuel + 1, cs =>
    match parseVal fuel cs with
    | none => none
    | some (v, r1) =>
      match skipWs r1 with
      | [] => none
      | ch :: r2 =>
        if ch = ',' then (parseElements fuel r2).map (fun p => (v :: p.1, p.2))
        else if ch = ']' then some ([v], r2)
        else none

end

/-- Models `JSON.parse` on one line: a value surrounded only by whitespace. -/
def jsonParse (cs : List Char) : Option Json :=
  match parseVal (cs.length + 1) cs with
  | some (v, rest) => if skipWs rest = [] then some v else none
  | none => none

/-- Field access `payload.name` on a parsed value: object lookup (last
duplicate wins, as assignment order does in JS), `none` on primitives and
arrays. -/
def getField (j : Json) (name : String) : Option Json :=
  match j with
  | Json.obj ms => (ms.reverse.find? (fun m => decide (m.1 = name))).map Prod.snd
  | _ => none

/-- The record fields `updateCard` reads off a parsed payload.  A `category`
value that is not a string is modelled as absent (the backend only emits
string categories; in JS a truthy non-string would be carried as a raw map
key). -/
def jsonToRecord (j : Json) : ScanRecord where
  category :=
    match getField j "category" with
    | some (Json.str s) => some s
    | _ => none
  status :=
    match getField j "status" with
    | some (Json.str s) => some s
    | _ => none
  returncode :=
    match getField j "returncode" with
    | some (Json.num q) => some q
    | _ => none

/-- What became of one forwarded line (lines 908-917): parsed and applied;
rejected by `JSON.parse` (warning logged, nothing applied); or the
`updateCard` call itself threw (only a `null` payload does: reading
`result.category` of `null` raises before any mutation, and the inner
`catch` swallows it). -/
inductive LineOutcome where
  | applied
  | parseFailure
  | updateError
  deriving DecidableEq, Repr

/-- Process one line: `JSON.parse` + guarded `updateCard`. -/
def applyLine (cat : Catalog) (now : Nat) (s : SessionState) (line : List Char) :
    SessionState × LineOutcome :=
  match jsonParse line with
  | none => (s, LineOutcome.parseFailure)
  | some Json.null => (s, LineOutcome.updateError)
  | some j => (updateCard cat now s (jsonToRecord j), LineOutcome.applied)

/-- Process forwarded lines in arrival order, collecting each outcome. -/
def processLines (cat : Catalog) (now : Nat) :
    SessionState → List (List Char) → SessionState × List LineOutcome
  | s, [] => (s, [])
  | s, l :: ls =>
    let a := applyLine cat now s l
    let rest := processLines cat now a.1 ls
    (rest.1, a.2 :: rest.2)

/-! ### Concrete fixtures used by specific scenarios -/

/-- The three-category catalog `[A(1), B(1), C(2)]` of the fast-forward
scenario. -/
def abcCatalog : Catalog :=
  [("A", 1), ("B", 1), ("C", 2)]

/-- The malformed input line of the tolerance scenario: an opening brace followed by plain text. -/
def c7BadLine : List Char :=
  ("\x7bnot json").data

/-- A well-formed record line. -/
def c7GoodLine : List Char :=
  ("\x7b\"category\":\"caches\",\"returncode\":0\x7d").data

/-- Character stream of the chunk-invariance scenario (starts with a
two-byte character). -/
def c8Chars : List Char :=
  ("é1\nab").data

/-- A chunking of `utf8Encode c8Chars` that splits the two-byte character
and splits the second line across three chunks. -/
def c8Chunks : List (List Nat) :=
  [[0xC3], [0xA9, 0x31, 0x0A], [0x61], [0x62]]

/-! ## Helper lemmas about the tracker operations -/

section TrackerLemmas

variable {cat : Catalog} {now a p : Nat} {c x : String} {e : Bool} {s : SessionState}
variable {r : ScanRecord}

@[simp] theorem updF_self {β : Type} (f : String → β) (c : String) (v : β) :
    updF f c v c = v := by
  simp [updF]

theorem updF_ne {β : Type} (f : String → β) {c x : String} (v : β) (h : x ≠ c) :
    updF f c v x = f x := by
  simp [updF, h]

@[simp] theorem activateCategory_failureCount :
    (activateCategory now c s).failureCount = s.failureCount := by
  unfold activateCategory; split <;> rfl

@[simp] theorem activateCategory_activeCategoryIndex :
    (activateCategory now c s).activeCategoryIndex = s.activeCategoryIndex := by
  unfold activateCategory; split <;> rfl

@[simp] theorem activateCategory_categoryTotals :
    (activateCategory now c s).categoryTotals = s.categoryTotals := by
  unfold activateCategory; split <;> rfl

@[simp] theorem activateCategory_categoryCompleted :
    (activateCategory now c s).categoryCompleted = s.categoryCompleted := by
  unfold activateCategory; split <;> rfl

@[simp] theorem activateCategory_endTimes :
    (activateCategory now c s).endTimes = s.endTimes := by
  unfold activateCategory; split <;> rfl

@[simp] theorem finishCategory_failureCount :
    (finishCategory now c e s).failureCount = s.failureCount := by
  unfold finishCategory; split <;> rfl

@[simp] theorem finishCategory_activeCategoryIndex :
    (finishCategory now c e s).activeCategoryIndex = s.activeCategoryIndex := by
  unfold finishCategory; split <;> rfl

@[simp] theorem finishCategory_categoryTotals :
    (finishCategory now c e s).categoryTotals = s.categoryTotals := by
  unfold finishCategory; split <;> rfl

@[simp] theorem finishCategory_categoryCompleted :
    (finishCategory now c e s).categoryCompleted = s.categoryCompleted := by
  unfold finishCategory; split <;> rfl

@[simp] theorem finishCategory_startTimes :
    (finishCategory now c e s).startTimes = s.startTimes := by
  unfold finishCategory; split <;> rfl

@[simp] theorem ensureEntry_failureCount :
    (ensureEntry c s).failureCount = s.failureCount := by
  unfold ensureEntry; split <;> rfl

@[simp] theorem ensureEntry_activeCategoryIndex :
    (ensureEntry c s).activeCategoryIndex = s.activeCategoryIndex := by
  unfold ensureEntry; split <;> rfl

@[simp] theorem ensureEntry_startTimes :
    (ensureEntry c s).startTimes = s.startTimes := by
  unfold ensureEntry; split <;> rfl

@[simp] theorem ensureEntry_endTimes :
    (ensureEntry c s).endTimes = s.endTimes := by
  unfold ensureEntry; split <;> rfl

@[simp] theorem ensureEntry_phase :
    (ensureEntry c s).phase = s.phase := by
  unfold ensureEntry; split <;> rfl

@[simp] theorem fastForwardFinish_failureCount :
    (fastForwardFinish cat now a p s).failureCount = s.failureCount := by
  unfold fastForwardFinish
  generalize List.range' a (p - a) = l
  induction l generalizing s with
  | nil => rfl
  | cons i t ih => rw [List.foldl_cons, ih, finishCategory_failureCount]

@[simp] theorem fastForwardFinish_activeCategoryIndex :
    (fastForwardFinish cat now a p s).activeCategoryIndex = s.activeCategoryIndex := by
  unfold fastForwardFinish
  generalize List.range' a (p - a) = l
  induction l generalizing s with
  | nil => rfl
  | cons i t ih => rw [List.foldl_cons, ih, finishCategory_activeCategoryIndex]

@[simp] theorem fastForwardFinish_categoryTotals :
    (fastForwardFinish cat now a p s).categoryTotals = s.categoryTotals := by
  unfold fastForwardFinish
  generalize List.range' a (p - a) = l
  induction l generalizing s with
  | nil => rfl
  | cons i t ih => rw [List.foldl_cons, ih, finishCategory_categoryTotals]

@[simp] theorem fastForwardFinish_categoryCompleted :
    (fastForwardFinish cat now a p s).categoryCompleted = s.categoryCompleted := by
  unfold fastForwardFinish
  generalize List.range' a (p - a) = l
  induction l generalizing s with
  | nil => rfl
  | cons i t ih => rw [List.foldl_cons, ih, finishCategory_categoryCompleted]

@[simp] theorem fastForwardFinish_startTimes :
    (fastForwardFinish cat now a p s).startTimes = s.startTimes := by
  unfold fastForwardFinish
  generalize List.range' a (p - a) = l
  induction l generalizing s with
  | nil => rfl
  | cons i t ih => rw [List.foldl_cons, ih, finishCategory_startTimes]

@[simp] theorem categoryTransition_failureCount :
    (categoryTransition cat now c s).failureCount = s.failureCount := by
  unfold categoryTransition
  split
  · split <;> simp
  · split <;> simp

@[simp] theorem categoryTransition_categoryTotals :
    (categoryTransition cat now c s).categoryTotals = s.categoryTotals := by
  unfold categoryTransition
  split
  · split <;> simp
  · split <;> simp

@[simp] theorem categoryTransition_categoryCompleted :
    (categoryTransition cat now c s).categoryCompleted = s.categoryCompleted := by
  unfold categoryTransition
  split
  · split <;> simp
  · split <;> simp

theorem totalOf_congr {t : SessionState} (h : t.categoryTotals = s.categoryTotals) :
    totalOf t x = totalOf s x := by
  unfold totalOf; rw [h]

theorem completedOf_congr {t : SessionState} (h : t.categoryCompleted = s.categoryCompleted) :
    completedOf t x = completedOf s x := by
  unfold completedOf; rw [h]

theorem activateCategory_phase_ne (h : x ≠ c) :
    (activateCategory now c s).phase x = s.phase x := by
  unfold activateCategory
  split
  · rfl
  · simp [updF_ne _ _ h]

theorem activateCategory_of_isSome (h : (s.startTimes c).isSome) :
    activateCategory now c s = s := by
  unfold activateCategory
  rw [if_pos (Or.inr h)]

theorem activateCategory_startTimes_isSome (h : (s.startTimes x).isSome) :
    ((activateCategory now c s).startTimes x).isSome := by
  unfold activateCategory
  split
  · exact h
  · by_cases hx : x = c
    · subst hx; simp
    · simpa [updF_ne _ _ hx] using h

theorem finishCategory_phase_self (h : c ≠ "") :
    (finishCategory now c e s).phase c = (if e then Phase.error else Phase.done) := by
  unfold finishCategory
  rw [if_neg h]
  simp

theorem finishCategory_phase_ne (h : x ≠ c) :
    (finishCategory now c e s).phase x = s.phase x := by
  unfold finishCategory
  split
  · rfl
  · simp [updF_ne _ _ h]

theorem finishCategory_phase_cases :
    (finishCategory now c e s).phase x = s.phase x ∨
      (finishCategory now c e s).phase x = (if e then Phase.error else Phase.done) := by
  by_cases hx : x = c
  · subst hx
    by_cases hc : x = ""
    · subst hc; unfold finishCategory; simp
    · exact Or.inr (finishCategory_phase_self hc)
  · exact Or.inl (finishCategory_phase_ne hx)

theorem fastForwardFinish_phase_cases :
    (fastForwardFinish cat now a p s).phase x = s.phase x ∨
      (fastForwardFinish cat now a p s).phase x = Phase.done := by
  unfold fastForwardFinish
  generalize List.range' a (p - a) = l
  induction l generalizing s with
  | nil => exact Or.inl rfl
  | cons i t ih =>
    rw [List.foldl_cons]
    rcases ih with h | h
    · rw [h]
      have hfin :
          (finishCategory now (((catNames cat).get? i).getD "") false s).phase x =
              s.phase x ∨
            (finishCategory now (((catNames cat).get? i).getD "") false s).phase x =
              (if false then Phase.error else Phase.done) := finishCategory_phase_cases
      simpa using hfin
    · exact Or.inr h

theorem categoryTransition_startTimes_isSome (h : (s.startTimes x).isSome) :
    ((categoryTransition cat now c s).startTimes x).isSome := by
  unfold categoryTransition
  split
  · split
    · apply activateCategory_startTimes_isSome
      simpa [fastForwardFinish_startTimes] using h
    · exact h
  · split
    · exact activateCategory_startTimes_isSome h
    · exact h

theorem categoryTransition_phase_not_running (hst : (s.startTimes x).isSome)
    (hph : s.phase x ≠ Phase.running) :
    (categoryTransition cat now c s).phase x ≠ Phase.running := by
  unfold categoryTransition
  rcases hidx : catIdx cat c with - | p
  · dsimp only
    split
    · by_cases hxc : x = c
      · subst hxc
        rw [activateCategory_of_isSome hst]
        exact hph
      · rw [activateCategory_phase_ne hxc]
        exact hph
    · exact hph
  · dsimp only
    split
    · have hres :
          (activateCategory now c
              { fastForwardFinish cat now s.activeCategoryIndex p s with
                activeCategoryIndex := p }).phase x =
            ({ fastForwardFinish cat now s.activeCategoryIndex p s with
                activeCategoryIndex := p } : SessionState).phase x := by
        by_cases hxc : x = c
        · subst hxc
          rw [activateCategory_of_isSome (by simpa using hst)]
        · exact activateCategory_phase_ne hxc
      rw [hres]
      show (fastForwardFinish cat now s.activeCategoryIndex p s).phase x ≠ Phase.running
      have hff :
          (fastForwardFinish cat now s.activeCategoryIndex p s).phase x = s.phase x ∨
            (fastForwardFinish cat now s.activeCategoryIndex p s).phase x = Phase.done :=
        fastForwardFinish_phase_cases
      rcases hff with hcase | hcase
      · simpa [hcase] using hph
      · simp [hcase]
    · exact hph

theorem catIdx_get? (h : catIdx cat c = some p) : (catNames cat).get? p = some c := by
  unfold catIdx at h
  rw [List.findIdx?_eq_some_iff_getElem] at h
  obtain ⟨hlt, hp, -⟩ := h
  simp only [decide_eq_true_eq] at hp
  rw [List.get?_eq_getElem?, List.getElem?_eq_getElem hlt, hp]

theorem catIdx_lt_length (h : catIdx cat c = some p) : p < (catNames cat).length := by
  unfold catIdx at h
  rw [List.findIdx?_eq_some_iff_getElem] at h
  exact h.1

theorem catIdx_none_ne (h : catIdx cat c = none) {x : String}
    (hx : x ∈ catNames cat) : x ≠ c := by
  unfold catIdx at h
  rw [List.findIdx?_eq_none_iff] at h
  simpa using h x hx

theorem resolveCategory_ne_empty : resolveCategory r ≠ "" := by
  unfold resolveCategory
  rcases r.category with - | c
  · simp
  · dsimp only
    split
    · simp
    · assumption

theorem ensureEntry_categoryTotals_self :
    (ensureEntry c s).categoryTotals c = some ((s.categoryTotals c).getD 1) := by
  unfold ensureEntry
  rcases h : s.categoryTotals c with - | t
  · simp [h]
  · simp [h]

theorem finishCategory_endTimes_isSome (hne : c ≠ "") :
    ((finishCategory now c e s).endTimes c).isSome := by
  unfold finishCategory
  rw [if_neg hne]
  dsimp only
  split
  · assumption
  · simp

theorem finishCategory_endTimes_self (hne : c ≠ "") (h : s.endTimes c = none) :
    (finishCategory now c e s).endTimes c = some now := by
  unfold finishCategory
  rw [if_neg hne]
  dsimp only
  rw [if_neg (by simp [h])]
  simp

theorem ensureEntry_of_isSome (h : (s.categoryTotals c).isSome) :
    ensureEntry c s = s := by
  unfold ensureEntry
  rw [if_neg (by simp [Option.isNone_iff_eq_none]; exact Option.ne_none_iff_isSome.mpr h)]

theorem activateCategory_phase_not_running {z : String} (hst : (s.startTimes x).isSome)
    (hph : s.phase x ≠ Phase.running) :
    (activateCategory now z s).phase x ≠ Phase.running := by
  by_cases hzx : x = z
  · subst hzx
    rw [activateCategory_of_isSome hst]
    exact hph
  · rw [activateCategory_phase_ne hzx]
    exact hph

theorem categoryTransition_endTimes_of_none (h : catIdx cat c = none) :
    (categoryTransition cat now c s).endTimes = s.endTimes := by
  unfold categoryTransition
  rw [h]
  dsimp only
  split <;> simp

theorem categoryTransition_activeCategoryIndex :
    (categoryTransition cat now c s).activeCategoryIndex =
      (match catIdx cat c with
       | some p => if s.activeCategoryIndex < p then p else s.activeCategoryIndex
       | none => s.activeCategoryIndex) := by
  unfold categoryTransition
  rcases catIdx cat c with - | p
  · dsimp only
    split <;> simp
  · dsimp only
    split <;> simp

end TrackerLemmas

/-! ## The claims -/

/-- C2.  Success determination: every applied record is classified
successful exactly when `status = "ok"` or `returncode = 0`; any other
combination of those fields (both absent included) increments the session
`failureCount` by exactly one, and a successful record leaves it unchanged. -/
theorem c2_success_determination (cat : Catalog) (now : Nat) (s : SessionState)
    (r : ScanRecord) :
    (updateCard cat now s r).failureCount =
      s.failureCount + (if recordSucceeds r then 0 else 1) := by
  unfold updateCard
  by_cases h : recordSucceeds r <;>
    simp only [isErrorRecord, h, decide_True, decide_False, Bool.not_true, Bool.not_false,
      Bool.false_eq_true, if_false, if_true] <;>
    split <;>
    first
      | (split <;> simp)
      | simp

/-- C9.  Elapsed-time formatting: a duration below 1000 ms renders as integer
milliseconds; from 1 s up to (exclusive) 60 s it renders as seconds with one
decimal digit; from 60 s on it renders as whole minutes and whole (rounded)
seconds. -/
theorem c9_format_duration (d : Nat) :
    (d < 1000 → formatDuration d = toString d ++ "ms") ∧
    (1000 ≤ d → d < 60000 →
      formatDuration d =
        toString ((d + 50) / 100 / 10) ++ "." ++ toString ((d + 50) / 100 % 10) ++ "s") ∧
    (60000 ≤ d →
      formatDuration d =
        toString (d / 60000) ++ "m " ++ toString ((d % 60000 + 500) / 1000) ++ "s") := by
  refine ⟨fun h => ?_, fun h1 h2 => ?_, fun h => ?_⟩ <;> unfold formatDuration
  · rw [if_pos h]
  · rw [if_neg (by omega), if_pos h2]
  · rw [if_neg (by omega), if_neg (by omega)]

/-- Witness for C9 at 500 ms, 1250 ms and 119999 ms. -/
theorem c9_format_duration_witness :
    formatDuration 500 = "500ms" ∧ formatDuration 1250 = "1.3s" ∧
      formatDuration 119999 = "1m 60s" := by
  refine ⟨?_, ?_, ?_⟩
  · rw [(c9_format_duration 500).1 (by decide)]; decide
  · rw [(c9_format_duration 1250).2.1 (by decide) (by decide)]; decide
  · rw [(c9_format_duration 119999).2.2 (by decide)]; decide

/-- Counterexample to C1 as stated: the claim quantifies over "a single
record for category C" without requiring success, but the failing record
`{category: "C"}` (no status, no returncode) leaves C in phase Error, not
Running. -/
theorem c1_counterexample :
    (updateCard abcCatalog 1 (startSession 0 abcCatalog)
        { category := some "C", status := none, returncode := none }).phase "C" =
      Phase.error ∧ Phase.error ≠ Phase.running := by
  constructor
  · decide
  · decide

/-- Counterexample to C3 (sticky error): on catalog `[A(1), B(1), C(2)]`, C
receives a failing record and then a successful one that brings
`completed` to `total = 2`; the final phase is Done, not Error. -/
theorem c3_counterexample :
    (updateCard abcCatalog 2
        (updateCard abcCatalog 1 (startSession 0 abcCatalog)
          { category := some "C", status := none, returncode := none })
        { category := some "C", status := some "ok", returncode := none }).phase "C" =
      Phase.done ∧ Phase.done ≠ Phase.error := by
  constructor
  · decide
  · decide

/-- Counterexample to C4: after a fast-forward to C (index 2), a late record
that completes A sets `activeCategoryIndex` back to 1 and re-activates the
fast-forwarded B, whose phase goes Done → Running. -/
theorem c4_counterexample :
    (updateCard abcCatalog 1 (startSession 0 abcCatalog)
        { category := some "C", status := some "ok", returncode := none }).activeCategoryIndex =
      2 ∧
    (updateCard abcCatalog 2
        (updateCard abcCatalog 1 (startSession 0 abcCatalog)
          { category := some "C", status := some "ok", returncode := none })
        { category := some "A", status := some "ok", returncode := none }).activeCategoryIndex =
      1 ∧
    (updateCard abcCatalog 1 (startSession 0 abcCatalog)
        { category := some "C", status := some "ok", returncode := none }).phase "B" =
      Phase.done ∧
    (updateCard abcCatalog 2
        (updateCard abcCatalog 1 (startSession 0 abcCatalog)
          { category := some "C", status := some "ok", returncode := none })
        { category := some "A", status := some "ok", returncode := none }).phase "B" =
      Phase.running := by
  refine ⟨?_, ?_, ?_, ?_⟩ <;> decide

/-- Counterexample to C5: two records for A (total 1) on catalog
`[A(1), B(1), C(2)]` leave `completed = 2 > 1 = total`. -/
theorem c5_counterexample :
    completedOf
        (updateCard abcCatalog 2
          (updateCard abcCatalog 1 (startSession 0 abcCatalog)
            { category := some "A", status := some "ok", returncode := none })
          { category := some "A", status := some "ok", returncode := none }) "A" = 2 ∧
    totalOf
        (updateCard abcCatalog 2
          (updateCard abcCatalog 1 (startSession 0 abcCatalog)
            { category := some "A", status := some "ok", returncode := none })
          { category := some "A", status := some "ok", returncode := none }) "A" = 1 ∧
    ¬(2 : Nat) ≤ 1 := by
  refine ⟨?_, ?_, ?_⟩ <;> decide

/-- C6.  Finalize on early termination: when the stream ends while the
active catalog category has `completed < total` and no recorded finish
time, `finalizeStatus` force-marks it Done with a finish timestamp, and
reports "All categories finished" (success) when `failureCount = 0` and
"Completed with N error(s)" (error) when `failureCount > 0`. -/
theorem c6_finalize_early_termination (cat : Catalog) (now : Nat) (s : SessionState)
    (c : String) (hget : (catNames cat).get? s.activeCategoryIndex = some c) (hne : c ≠ "")
    (hend : s.endTimes c = none) (_hlt : completedOf s c < totalOf s c) :
    (finalizeStatus cat now s).1.phase c = Phase.done ∧
    (finalizeStatus cat now s).1.endTimes c = some now ∧
    (s.failureCount = 0 →
      (finalizeStatus cat now s).2 = ("All categories finished", Tone.success)) ∧
    (0 < s.failureCount →
      (finalizeStatus cat now s).2 =
        ("Completed with " ++ toString s.failureCount ++ " error(s)", Tone.error)) := by
  unfold finalizeStatus
  rw [hget]
  dsimp only
  rw [if_pos ⟨hne, by simp [hend]⟩]
  refine ⟨?_, ?_, fun h0 => ?_, fun h0 => ?_⟩
  · have h : (finishCategory now c false s).phase c = (if false then Phase.error else Phase.done) :=
      finishCategory_phase_self hne
    simpa using h
  · exact finishCategory_endTimes_self hne hend
  · simp [h0]
  · rw [if_pos h0]

/-- Witness for C6: a fresh session on the real catalog (snapshots active,
0 of 2 complete, no failures) finalized at time 5. -/
theorem c6_finalize_early_termination_witness :
    (finalizeStatus macCatalog 5 (startSession 0 macCatalog)).1.phase "snapshots" =
      Phase.done ∧
    (finalizeStatus macCatalog 5 (startSession 0 macCatalog)).2 =
      ("All categories finished", Tone.success) := by
  have h := c6_finalize_early_termination macCatalog 5 (startSession 0 macCatalog) "snapshots"
    (by decide) (by decide) (by decide) (by decide)
  exact ⟨h.1, h.2.2.1 (by decide)⟩

/-- C10.  Unknown-category side effect: a record whose resolved category is
not in the catalog has its state lazily capped at `total = 1`, so the record
immediately finishes the category (Done or Error by the record's own
success), and the auto-activation step then resets `activeCategoryIndex`
to 0 (`indexOf` gives `-1`, plus 1), pointing back at the first catalog
category no matter how far the session had advanced. -/
theorem c10_unknown_category (cat : Catalog) (now : Nat) (s : SessionState) (r : ScanRecord)
    (hidx : catIdx cat (resolveCategory r) = none)
    (htot : s.categoryTotals (resolveCategory r) = none ∨
      s.categoryTotals (resolveCategory r) = some 1)
    (hlen : 0 < (catNames cat).length) :
    (updateCard cat now s r).categoryTotals (resolveCategory r) = some 1 ∧
    totalOf (updateCard cat now s r) (resolveCategory r) ≤
      completedOf (updateCard cat now s r) (resolveCategory r) ∧
    ((updateCard cat now s r).endTimes (resolveCategory r)).isSome ∧
    (updateCard cat now s r).phase (resolveCategory r) =
      (if recordSucceeds r then Phase.done else Phase.error) ∧
    (updateCard cat now s r).activeCategoryIndex = 0 := by
  have hcne : resolveCategory r ≠ "" := resolveCategory_ne_empty
  obtain ⟨y, hy⟩ : ∃ y, (catNames cat).get? 0 = some y := ⟨_, List.get?_eq_get hlen⟩
  have hyc : resolveCategory r ≠ y :=
    Ne.symm (catIdx_none_ne hidx (List.get?_mem hy))
  simp only [updateCard]
  generalize hS :
    categoryTransition cat now (resolveCategory r) (ensureEntry (resolveCategory r) s) = S
  have hS1 : S.categoryTotals (resolveCategory r) = some 1 := by
    rw [← hS, categoryTransition_categoryTotals, ensureEntry_categoryTotals_self]
    rcases htot with h | h <;> simp [h]
  have htotal : totalOf S (resolveCategory r) = 1 := by
    unfold totalOf
    rw [hS1]
    rfl
  rw [if_pos (by rw [htotal]; omega), hidx]
  dsimp only
  rw [if_pos hlen, hy]
  simp only [Option.getD_some]
  by_cases hsucc : recordSucceeds r <;>
    simp only [isErrorRecord, hsucc, decide_True, decide_False, Bool.not_true, Bool.not_false,
      Bool.false_eq_true, if_false, if_true] <;>
    refine ⟨?_, ?_, ?_, ?_, ?_⟩
  · simp [hS1]
  · simp [totalOf, completedOf, hS1, updF]
  · rw [activateCategory_endTimes]
    exact finishCategory_endTimes_isSome hcne
  · simp [activateCategory_phase_ne hyc, finishCategory_phase_self hcne, hsucc]
  · simp
  · simp [hS1]
  · simp [totalOf, completedOf, hS1, updF]
  · rw [activateCategory_endTimes]
    exact finishCategory_endTimes_isSome hcne
  · simp [activateCategory_phase_ne hyc, finishCategory_phase_self hcne, hsucc]
  · simp

/-- Witness for C10: a failing record for the out-of-catalog category
"mystery", arriving after the session has fast-forwarded to "docker"
(index 8), finishes "mystery" as Error and resets the active index to 0. -/
theorem c10_unknown_category_witness :
    (updateCard macCatalog 2
        (updateCard macCatalog 1 (startSession 0 macCatalog)
          { category := some "docker", status := some "ok", returncode := none })
        { category := some "mystery", status := none, returncode := none }).phase "mystery" =
      Phase.error ∧
    (updateCard macCatalog 2
        (updateCard macCatalog 1 (startSession 0 macCatalog)
          { category := some "docker", status := some "ok", returncode := none })
        { category := some "mystery", status := none, returncode := none }).activeCategoryIndex =
      0 := by
  have h := c10_unknown_category macCatalog 2
    (updateCard macCatalog 1 (startSession 0 macCatalog)
      { category := some "docker", status := some "ok", returncode := none })
    { category := some "mystery", status := none, returncode := none }
    (by decide) (by decide) (by decide)
  refine ⟨?_, h.2.2.2.2⟩
  have hph := h.2.2.2.1
  rw [if_neg (by decide)] at hph
  exact hph

/-- C1 (amended).  Fast-forward correctness: on catalog `[A(1), B(1), C(2)]`
with a fresh session (active index 0, A auto-activated), a single
*successful* record for C forces A and B to Done, leaves C Running, and
sets C's completed count to 1.  (A failing record differs only in leaving C
in phase Error — see the counterexample.) -/
theorem c1_fast_forward (r : ScanRecord) (hcat : r.category = some "C")
    (hsucc : recordSucceeds r) :
    (updateCard abcCatalog 1 (startSession 0 abcCatalog) r).phase "A" = Phase.done ∧
    (updateCard abcCatalog 1 (startSession 0 abcCatalog) r).phase "B" = Phase.done ∧
    (updateCard abcCatalog 1 (startSession 0 abcCatalog) r).phase "C" = Phase.running ∧
    completedOf (updateCard abcCatalog 1 (startSession 0 abcCatalog) r) "C" = 1 := by
  have hc : resolveCategory r = "C" := by
    simp [resolveCategory, hcat]
  have herr : isErrorRecord r = false := by
    simp [isErrorRecord, hsucc]
  simp only [updateCard, hc, herr, Bool.false_eq_true, if_false]
  refine ⟨?_, ?_, ?_, ?_⟩ <;> decide

/-- Witness for C1 at the concrete successful record
`{category: "C", returncode: 0}`. -/
theorem c1_fast_forward_witness :
    (updateCard abcCatalog 1 (startSession 0 abcCatalog)
        { category := some "C", status := none, returncode := some 0 }).phase "A" =
      Phase.done ∧
    (updateCard abcCatalog 1 (startSession 0 abcCatalog)
        { category := some "C", status := none, returncode := some 0 }).phase "C" =
      Phase.running :=
  have h := c1_fast_forward
    { category := some "C", status := none, returncode := some 0 } rfl (Or.inr rfl)
  ⟨h.1, h.2.2.1⟩

/-- C3 (amended).  Completion phase: on a duplicate-free catalog, a record
that brings its category's completed count to (or past) its total leaves the
category's final phase Done exactly when that record itself succeeded, and
Error exactly when it failed — an *earlier* failing record does not stick
(it is only reflected in `failureCount`; see the counterexample). -/
theorem c3_completion_phase (cat : Catalog) (now : Nat) (s : SessionState) (r : ScanRecord)
    (hnodup : (catNames cat).Nodup)
    (hreach : totalOf (ensureEntry (resolveCategory r) s) (resolveCategory r) ≤
      completedOf (ensureEntry (resolveCategory r) s) (resolveCategory r) + 1) :
    (updateCard cat now s r).phase (resolveCategory r) =
      (if recordSucceeds r then Phase.done else Phase.error) := by
  have hcne : resolveCategory r ≠ "" := resolveCategory_ne_empty
  simp only [updateCard]
  generalize hS :
    categoryTransition cat now (resolveCategory r) (ensureEntry (resolveCategory r) s) = S
  have hcond : totalOf S (resolveCategory r) ≤ completedOf S (resolveCategory r) + 1 := by
    have ht : totalOf S (resolveCategory r) =
        totalOf (ensureEntry (resolveCategory r) s) (resolveCategory r) := by
      unfold totalOf
      rw [← hS, categoryTransition_categoryTotals]
    have hcp : completedOf S (resolveCategory r) =
        completedOf (ensureEntry (resolveCategory r) s) (resolveCategory r) := by
      unfold completedOf
      rw [← hS, categoryTransition_categoryCompleted]
    rw [ht, hcp]
    exact hreach
  rw [if_pos hcond]
  rcases hidx : catIdx cat (resolveCategory r) with - | p
  · dsimp only
    by_cases hlen : 0 < (catNames cat).length
    · rw [if_pos hlen]
      obtain ⟨y, hy⟩ : ∃ y, (catNames cat).get? 0 = some y := ⟨_, List.get?_eq_get hlen⟩
      have hyc : resolveCategory r ≠ y := Ne.symm (catIdx_none_ne hidx (List.get?_mem hy))
      rw [hy]
      simp only [Option.getD_some]
      by_cases hsucc : recordSucceeds r <;>
        simp [isErrorRecord, hsucc, activateCategory_phase_ne hyc,
          finishCategory_phase_self hcne]
    · rw [if_neg hlen]
      by_cases hsucc : recordSucceeds r <;>
        simp [isErrorRecord, hsucc, finishCategory_phase_self hcne]
  · dsimp only
    by_cases hlt : p + 1 < (catNames cat).length
    · rw [if_pos hlt]
      obtain ⟨y, hy⟩ : ∃ y, (catNames cat).get? (p + 1) = some y := ⟨_, List.get?_eq_get hlt⟩
      have hplt : p < (catNames cat).length := catIdx_lt_length hidx
      have hgetp : (catNames cat).get ⟨p, hplt⟩ = resolveCategory r := by
        have h := catIdx_get? hidx
        rw [List.get?_eq_get hplt] at h
        exact Option.some_injective _ h
      have hyv : (catNames cat).get ⟨p + 1, hlt⟩ = y := by
        rw [List.get?_eq_get hlt] at hy
        exact Option.some_injective _ hy
      have hyc : resolveCategory r ≠ y := by
        intro he
        have hfin : (⟨p, hplt⟩ : Fin (catNames cat).length) = ⟨p + 1, hlt⟩ := by
          rw [← List.Nodup.get_inj_iff hnodup, hgetp, hyv, he]
        have : p = p + 1 := congrArg Fin.val hfin
        omega
      rw [hy]
      simp only [Option.getD_some]
      by_cases hsucc : recordSucceeds r <;>
        simp [isErrorRecord, hsucc, activateCategory_phase_ne hyc,
          finishCategory_phase_self hcne]
    · rw [if_neg hlt]
      by_cases hsucc : recordSucceeds r <;>
        simp [isErrorRecord, hsucc, finishCategory_phase_self hcne]

/-- Witness for C3 at a successful record completing A (total 1) on
`[A(1), B(1), C(2)]`. -/
theorem c3_completion_phase_witness :
    (updateCard abcCatalog 1 (startSession 0 abcCatalog)
        { category := some "A", status := some "ok", returncode := none }).phase "A" =
      Phase.done := by
  have h := c3_completion_phase abcCatalog 1 (startSession 0 abcCatalog)
    { category := some "A", status := some "ok", returncode := none } (by decide) (by decide)
  have hs : recordSucceeds { category := some "A", status := some "ok", returncode := none } :=
    Or.inl rfl
  rw [if_pos hs] at h
  exact h

/-- C4 (amended).  Monotonicity as the code actually guarantees it:
(1) `activeCategoryIndex` does not decrease across an apply whose record
names a catalog category at or beyond the active index (a record for an
*earlier* catalog category that reaches its total, or for an out-of-catalog
category, may move it backward — see the counterexample); and
(2) a category that has a start time and has reached its total never
re-enters Running (a category finished by fast-forward alone, with no start
time, can — see the counterexample). -/
theorem c4_monotonicity (cat : Catalog) (now : Nat) (s : SessionState) (r : ScanRecord) :
    (∀ p, catIdx cat (resolveCategory r) = some p → s.activeCategoryIndex ≤ p →
      s.activeCategoryIndex ≤ (updateCard cat now s r).activeCategoryIndex) ∧
    (∀ x, (s.startTimes x).isSome → totalOf s x ≤ completedOf s x →
      s.phase x ≠ Phase.running →
      (updateCard cat now s r).phase x ≠ Phase.running) := by
  constructor
  · intro p hidx hle
    simp only [updateCard]
    generalize hS :
      categoryTransition cat now (resolveCategory r) (ensureEntry (resolveCategory r) s) = S
    have hSa : s.activeCategoryIndex ≤ S.activeCategoryIndex := by
      have h :
          (categoryTransition cat now (resolveCategory r)
              (ensureEntry (resolveCategory r) s)).activeCategoryIndex =
            (match catIdx cat (resolveCategory r) with
             | some q =>
               if (ensureEntry (resolveCategory r) s).activeCategoryIndex < q then q
               else (ensureEntry (resolveCategory r) s).activeCategoryIndex
             | none => (ensureEntry (resolveCategory r) s).activeCategoryIndex) :=
        categoryTransition_activeCategoryIndex
      rw [hS, hidx, ensureEntry_activeCategoryIndex] at h
      dsimp only at h
      split at h <;> omega
    have hactive :
        ((if isErrorRecord r = true then { S with failureCount := S.failureCount + 1 }
          else S) : SessionState).activeCategoryIndex = S.activeCategoryIndex := by
      split <;> rfl
    split
    · rw [hidx]
      dsimp only
      split
      · simp [hactive]
        exact Nat.le_succ_of_le hle
      · simp [hactive]
        exact hSa
    · split
      · simp [hactive]
        exact hSa
      · simp [hactive]
        exact hSa
  · intro x hst htc hph
    have hcne : resolveCategory r ≠ "" := resolveCategory_ne_empty
    simp only [updateCard]
    generalize hS :
      categoryTransition cat now (resolveCategory r) (ensureEntry (resolveCategory r) s) = S
    have hSst : (S.startTimes x).isSome := by
      rw [← hS]
      exact categoryTransition_startTimes_isSome (by simpa using hst)
    have hSph : S.phase x ≠ Phase.running := by
      rw [← hS]
      exact categoryTransition_phase_not_running (by simpa using hst) (by simpa using hph)
    have hs3ph :
        ((if isErrorRecord r = true then { S with failureCount := S.failureCount + 1 }
          else S) : SessionState).phase = S.phase := by
      split <;> rfl
    have hs3st :
        ((if isErrorRecord r = true then { S with failureCount := S.failureCount + 1 }
          else S) : SessionState).startTimes = S.startTimes := by
      split <;> rfl
    by_cases hxc : x = resolveCategory r
    · have hcx : resolveCategory r = x := hxc.symm
      rw [hcx] at hcne ⊢
      have hcond : totalOf S x ≤ completedOf S x + 1 := by
        have ht : totalOf S x = totalOf (ensureEntry x s) x := by
          unfold totalOf
          rw [← hS, categoryTransition_categoryTotals, hcx]
        have hcp : completedOf S x = completedOf (ensureEntry x s) x := by
          unfold completedOf
          rw [← hS, categoryTransition_categoryCompleted, hcx]
        rw [ht, hcp]
        rcases h0 : s.categoryTotals x with - | t
        · unfold totalOf completedOf ensureEntry
          simp [h0, updF]
        · have he : ensureEntry x s = s := ensureEntry_of_isSome (by simp [h0])
          rw [he]
          omega
      rw [if_pos hcond]
      rcases hidx : catIdx cat x with - | p <;> dsimp only
      · by_cases hlen : 0 < (catNames cat).length
        · rw [if_pos hlen]
          apply activateCategory_phase_not_running
          · simp [hs3st, hSst]
          · cases hbe : isErrorRecord r <;> simp [hbe, finishCategory_phase_self hcne]
        · rw [if_neg hlen]
          cases hbe : isErrorRecord r <;> simp [hbe, finishCategory_phase_self hcne]
      · by_cases hlt : p + 1 < (catNames cat).length
        · rw [if_pos hlt]
          apply activateCategory_phase_not_running
          · simp [hs3st, hSst]
          · cases hbe : isErrorRecord r <;> simp [hbe, finishCategory_phase_self hcne]
        · rw [if_neg hlt]
          cases hbe : isErrorRecord r <;> simp [hbe, finishCategory_phase_self hcne]
    · split
      · rcases hidx : catIdx cat (resolveCategory r) with - | p <;> dsimp only
        · split
          · apply activateCategory_phase_not_running
            · simp [hs3st, hSst]
            · simp [finishCategory_phase_ne hxc, hs3ph]
              exact hSph
          · simp [finishCategory_phase_ne hxc, hs3ph]
            exact hSph
        · split
          · apply activateCategory_phase_not_running
            · simp [hs3st, hSst]
            · simp [finishCategory_phase_ne hxc, hs3ph]
              exact hSph
          · simp [finishCategory_phase_ne hxc, hs3ph]
            exact hSph
      · split
        · simp [updF_ne _ _ hxc, hs3ph]
          exact hSph
        · simp [updF_ne _ _ hxc, hs3ph]
          exact hSph

/-- Witness for C4 after A has completed on `[A(1), B(1), C(2)]`: a record
for C (position 2, at or beyond the active index 1) does not decrease the
active index, and the started, completed category A does not re-enter
Running. -/
theorem c4_monotonicity_witness :
    (updateCard abcCatalog 1 (startSession 0 abcCatalog)
        { category := some "A", status := some "ok", returncode := none }).activeCategoryIndex ≤
      (updateCard abcCatalog 2
        (updateCard abcCatalog 1 (startSession 0 abcCatalog)
          { category := some "A", status := some "ok", returncode := none })
        { category := some "C", status := some "ok", returncode := none }).activeCategoryIndex ∧
    (updateCard abcCatalog 2
        (updateCard abcCatalog 1 (startSession 0 abcCatalog)
          { category := some "A", status := some "ok", returncode := none })
        { category := some "C", status := some "ok", returncode := none }).phase "A" ≠
      Phase.running := by
  have h := c4_monotonicity abcCatalog 2
    (updateCard abcCatalog 1 (startSession 0 abcCatalog)
      { category := some "A", status := some "ok", returncode := none })
    { category := some "C", status := some "ok", returncode := none }
  exact ⟨h.1 2 (by decide) (by decide), h.2 "A" (by decide) (by decide) (by decide)⟩

/-- C5 (amended).  Every applied record unconditionally increments its
category's completed count by one — so `completed` can exceed `total` (see
the counterexample) — while every derived progress percentage is clamped
into [0, 100]. -/
theorem c5_count_and_percent (cat : Catalog) (now : Nat) (s : SessionState) (r : ScanRecord) :
    (updateCard cat now s r).categoryCompleted (resolveCategory r) =
      some (completedOf (ensureEntry (resolveCategory r) s) (resolveCategory r) + 1) ∧
    (∀ (t : SessionState) (c : String),
      0 ≤ displayedPercent t c ∧ displayedPercent t c ≤ 100) := by
  constructor
  · simp only [updateCard]
    generalize hS :
      categoryTransition cat now (resolveCategory r) (ensureEntry (resolveCategory r) s) = S
    have hcp : completedOf S (resolveCategory r) =
        completedOf (ensureEntry (resolveCategory r) s) (resolveCategory r) := by
      unfold completedOf
      rw [← hS, categoryTransition_categoryCompleted]
    rw [← hcp]
    cases hbe : isErrorRecord r <;>
      simp only [hbe, Bool.false_eq_true, if_false, if_true] <;>
      split <;>
      first
        | (split <;> simp [updF])
        | simp [updF]
  · intro t c
    constructor
    · refine le_min (by norm_num) ?_
      positivity
    · exact min_le_left _ _

/-- C7.  Malformed line tolerance: feeding the malformed line `c7BadLine` followed
by one valid record line applies exactly one record and reports exactly one
parse failure; in general a line `JSON.parse` rejects leaves the session
state (in particular `failureCount`) untouched and processing continues with
the remaining lines unchanged. -/
theorem c7_malformed_line_tolerance :
    ((processLines macCatalog 1 (startSession 0 macCatalog)
        [c7BadLine, c7GoodLine]).2.count LineOutcome.applied = 1 ∧
      (processLines macCatalog 1 (startSession 0 macCatalog)
        [c7BadLine, c7GoodLine]).2.count LineOutcome.parseFailure = 1) ∧
    (∀ (cat : Catalog) (now : Nat) (s : SessionState) (l : List Char)
      (rest : List (List Char)), jsonParse l = none →
      processLines cat now s (l :: rest) =
        ((processLines cat now s rest).1,
          LineOutcome.parseFailure :: (processLines cat now s rest).2)) := by
  constructor
  · constructor <;> decide
  · intro cat now s l rest hl
    simp [processLines, applyLine, hl]

/-- Witness for the general part of C7 at the malformed line `c7BadLine`. -/
theorem c7_malformed_line_tolerance_witness :
    (jsonParse c7BadLine).isNone = true ∧
    processLines macCatalog 1 (startSession 0 macCatalog) [c7BadLine] =
      ((processLines macCatalog 1 (startSession 0 macCatalog) []).1,
        LineOutcome.parseFailure ::
          (processLines macCatalog 1 (startSession 0 macCatalog) []).2) :=
  ⟨by decide,
    c7_malformed_line_tolerance.2 macCatalog 1 (startSession 0 macCatalog) c7BadLine []
      (Option.isNone_iff_eq_none.mp (by decide))⟩

/-! ## Decoder lemmas for chunk-boundary invariance -/

section DecoderLemmas

theorem decodeLoop_eq_emit {bs rest : List Nat} {c : Char}
    (h : decodeStep bs = DecodeStep.emit c rest) :
    decodeLoop bs = (c :: (decodeLoop rest).1, (decodeLoop rest).2) := by
  rw [decodeLoop]
  split
  · rename_i p heq
    rw [h] at heq
    cases heq
  · rename_i c2 rest2 heq
    rw [h] at heq
    cases heq
    rfl

theorem decodeLoop_eq_hold {bs p : List Nat} (h : decodeStep bs = DecodeStep.hold p) :
    decodeLoop bs = ([], p) := by
  rw [decodeLoop]
  split
  · rename_i p2 heq
    rw [h] at heq
    cases heq
    rfl
  · rename_i c2 rest2 heq
    rw [h] at heq
    cases heq

@[simp] theorem decodeLoop_nil : decodeLoop [] = ([], []) :=
  decodeLoop_eq_hold rfl

/-- The valid-scalar bounds of a `Char`, as plain arithmetic on `toNat`. -/
theorem char_toNat_bounds (c : Char) :
    c.toNat < 0xd800 ∨ (0xdfff < c.toNat ∧ c.toNat < 0x110000) :=
  c.valid

/-- One decoder step inverts the encoder on any canonical sequence. -/
theorem decodeStep_encodeChar (c : Char) (rest : List Nat) :
    decodeStep (utf8EncodeChar c ++ rest) = DecodeStep.emit c rest := by
  have hv := char_toNat_bounds c
  have hofn : Char.ofNat c.toNat = c := Char.ofNat_toNat c
  unfold utf8EncodeChar
  by_cases h1 : c.toNat < 0x80
  · rw [if_pos h1]
    simp only [List.cons_append, List.nil_append]
    unfold decodeStep
    try dsimp only
    rw [if_pos h1, hofn]
  · rw [if_neg h1]
    by_cases h2 : c.toNat < 0x800
    · rw [if_pos h2]
      simp only [List.cons_append, List.nil_append]
      unfold decodeStep
      try dsimp only
      rw [if_neg (by omega), if_neg (by omega), if_pos (by omega)]
      try dsimp only
      rw [if_pos (by simp [isCont]; omega)]
      have hval : (0xC0 + c.toNat / 64 - 0xC0) * 64 + (0x80 + c.toNat % 64 - 0x80) =
          c.toNat := by omega
      rw [hval, hofn]
    · rw [if_neg h2]
      by_cases h3 : c.toNat < 0x10000
      · rw [if_pos h3]
        simp only [List.cons_append, List.nil_append]
        unfold decodeStep
        try dsimp only
        rw [if_neg (by omega), if_neg (by omega), if_neg (by omega), if_pos (by omega)]
        try dsimp only
        rw [if_pos (by simp [isCont]; omega)]
        have hval : (0xE0 + c.toNat / 4096 - 0xE0) * 4096 +
            (0x80 + c.toNat / 64 % 64 - 0x80) * 64 + (0x80 + c.toNat % 64 - 0x80) =
            c.toNat := by omega
        rw [hval, hofn]
      · rw [if_neg h3]
        simp only [List.cons_append, List.nil_append]
        unfold decodeStep
        try dsimp only
        rw [if_neg (by omega), if_neg (by omega), if_neg (by omega), if_neg (by omega),
          if_pos (by omega)]
        try dsimp only
        rw [if_pos (by simp [isCont]; omega)]
        have hval : (0xF0 + c.toNat / 262144 - 0xF0) * 262144 +
            (0x80 + c.toNat / 4096 % 64 - 0x80) * 4096 +
            (0x80 + c.toNat / 64 % 64 - 0x80) * 64 + (0x80 + c.toNat % 64 - 0x80) =
            c.toNat := by omega
        rw [hval, hofn]

theorem decodeLoop_encodeChar (c : Char) (rest : List Nat) :
    decodeLoop (utf8EncodeChar c ++ rest) =
      (c :: (decodeLoop rest).1, (decodeLoop rest).2) :=
  decodeLoop_eq_emit (decodeStep_encodeChar c rest)

@[simp] theorem utf8Encode_nil : utf8Encode [] = [] := rfl

@[simp] theorem utf8Encode_cons (c : Char) (s : List Char) :
    utf8Encode (c :: s) = utf8EncodeChar c ++ utf8Encode s := by
  simp [utf8Encode]

/-- Decoding a fully encoded stream returns it whole, with empty carry. -/
theorem decodeLoop_utf8Encode (s : List Char) : decodeLoop (utf8Encode s) = (s, []) := by
  induction s with
  | nil => simp
  | cons c s ih =>
    rw [utf8Encode_cons, decodeLoop_encodeChar, ih]

/-- A proper prefix of one encoded character is held back entirely. -/
theorem decodeStep_hold_incomplete (c : Char) (pre post : List Nat)
    (h : utf8EncodeChar c = pre ++ post) (hne : post ≠ []) :
    decodeStep pre = DecodeStep.hold pre := by
  have hv := char_toNat_bounds c
  unfold utf8EncodeChar at h
  by_cases h1 : c.toNat < 0x80
  · rw [if_pos h1] at h
    cases pre with
    | nil => rfl
    | cons a pre2 =>
      exfalso
      have hl := congrArg List.length h
      simp at hl
      exact hne hl.2
  · rw [if_neg h1] at h
    by_cases h2 : c.toNat < 0x800
    · rw [if_pos h2] at h
      cases pre with
      | nil => rfl
      | cons a pre2 =>
        simp only [List.cons_append, List.cons.injEq] at h
        obtain ⟨rfl, h⟩ := h
        cases pre2 with
        | nil =>
          unfold decodeStep
          try dsimp only
          rw [if_neg (by omega), if_neg (by omega), if_pos (by omega)]
        | cons b pre3 =>
          exfalso
          have hl := congrArg List.length h
          simp at hl
          exact hne hl.2
    · by_cases h3 : c.toNat < 0x10000
      · rw [if_neg h2, if_pos h3] at h
        cases pre with
        | nil => rfl
        | cons a pre2 =>
          simp only [List.cons_append, List.cons.injEq] at h
          obtain ⟨rfl, h⟩ := h
          cases pre2 with
          | nil =>
            unfold decodeStep
            try dsimp only
            rw [if_neg (by omega), if_neg (by omega), if_neg (by omega), if_pos (by omega)]
          | cons b pre3 =>
            simp only [List.cons_append, List.cons.injEq] at h
            obtain ⟨rfl, h⟩ := h
            cases pre3 with
            | nil =>
              unfold decodeStep
              try dsimp only
              rw [if_neg (by omega), if_neg (by omega), if_neg (by omega), if_pos (by omega)]
              try dsimp only
              rw [if_pos (by simp [isCont]; omega)]
            | cons d pre4 =>
              exfalso
              have hl := congrArg List.length h
              simp at hl
              exact hne hl.2
      · rw [if_neg h2, if_neg h3] at h
        cases pre with
        | nil => rfl
        | cons a pre2 =>
          simp only [List.cons_append, List.cons.injEq] at h
          obtain ⟨rfl, h⟩ := h
          cases pre2 with
          | nil =>
            unfold decodeStep
            try dsimp only
            rw [if_neg (by omega), if_neg (by omega), if_neg (by omega), if_neg (by omega),
              if_pos (by omega)]
          | cons b pre3 =>
            simp only [List.cons_append, List.cons.injEq] at h
            obtain ⟨rfl, h⟩ := h
            cases pre3 with
            | nil =>
              unfold decodeStep
              try dsimp only
              rw [if_neg (by omega), if_neg (by omega), if_neg (by omega), if_neg (by omega),
                if_pos (by omega)]
              try dsimp only
              rw [if_pos (by simp [isCont]; omega)]
            | cons d pre4 =>
              simp only [List.cons_append, List.cons.injEq] at h
              obtain ⟨rfl, h⟩ := h
              cases pre4 with
              | nil =>
                unfold decodeStep
                try dsimp only
                rw [if_neg (by omega), if_neg (by omega), if_neg (by omega), if_neg (by omega),
                  if_pos (by omega)]
                try dsimp only
                rw [if_pos (by simp [isCont]; omega)]
              | cons e pre5 =>
                exfalso
                have hl := congrArg List.length h
                simp at hl
                exact hne hl.2

/-- Soundness of one decode pass on any prefix of a validly encoded stream:
it emits exactly the characters whose encodings lie wholly within the
prefix, and the carry-over is the incomplete tail. -/
theorem decodeLoop_sound (s : List Char) :
    ∀ (bs t : List Nat), bs ++ t = utf8Encode s →
    ∃ s1 s2, s = s1 ++ s2 ∧ (decodeLoop bs).1 = s1 ∧
      utf8Encode s1 ++ (decodeLoop bs).2 = bs ∧
      pendingOnly (decodeLoop bs).2 ∧
      (decodeLoop bs).2 ++ t = utf8Encode s2 := by
  induction s with
  | nil =>
    intro bs t h
    simp only [utf8Encode_nil] at h
    obtain ⟨hbs, ht⟩ := List.append_eq_nil.mp h
    subst hbs
    subst ht
    exact ⟨[], [], rfl, by simp, by simp, by simp [pendingOnly], by simp⟩
  | cons c s' ih =>
    intro bs t h
    rw [utf8Encode_cons] at h
    rcases List.append_eq_append_iff.mp h with ⟨a2, ha, ht⟩ | ⟨c2, hbs, hd⟩
    · by_cases hz : a2 = []
      · subst hz
        rw [List.append_nil] at ha
        subst ha
        rw [List.nil_append] at ht
        have hd := decodeLoop_encodeChar c []
        rw [List.append_nil] at hd
        refine ⟨[c], s', rfl, by simp [hd], by simp [hd], by simp [hd, pendingOnly],
          by simp [hd, ht]⟩
      · have hstep := decodeStep_hold_incomplete c bs a2 ha hz
        have hdl : decodeLoop bs = ([], bs) := decodeLoop_eq_hold hstep
        refine ⟨[], c :: s', by simp, by simp [hdl], by simp [hdl], ?_, ?_⟩
        · show pendingOnly (decodeLoop bs).2
          rw [hdl]
          exact hdl
        · rw [hdl]
          simpa [utf8Encode_cons] using h
    · subst hbs
      obtain ⟨s1', s2', hs, h1, h2, h3, h4⟩ := ih c2 t hd.symm
      have hd2 := decodeLoop_encodeChar c c2
      refine ⟨c :: s1', s2', by simp [hs], ?_, ?_, ?_, ?_⟩
      · rw [hd2]
        simp [h1]
      · rw [hd2]
        simp only [utf8Encode_cons, List.append_assoc]
        rw [h2]
      · rw [hd2]
        exact h3
      · rw [hd2]
        exact h4

end DecoderLemmas

/-! ## Line splitter and trim lemmas -/

section LineLemmas

theorem splitLinesJs_snd_no_newline (cs : List Char) : '\n' ∉ (splitLinesJs cs).2 := by
  induction cs with
  | nil => simp [splitLinesJs]
  | cons ch cs ih =>
    by_cases hch : ch = '\n'
    · simp [splitLinesJs, hch, ih]
    · simp only [splitLinesJs, if_neg hch]
      split
      · simpa [Ne.symm hch] using ih
      · simpa using ih

theorem splitLinesJs_of_no_newline {cs : List Char} (h : '\n' ∉ cs) :
    splitLinesJs cs = ([], cs) := by
  induction cs with
  | nil => rfl
  | cons ch cs ih =>
    have hch : ch ≠ '\n' := by
      rintro rfl
      exact h (List.mem_cons_self _ _)
    have hcs : '\n' ∉ cs := fun hm => h (List.mem_cons_of_mem _ hm)
    simp [splitLinesJs, if_neg hch, ih hcs]

theorem splitLinesJs_append (a b : List Char) :
    splitLinesJs (a ++ b) =
      ((splitLinesJs a).1 ++ (splitLinesJs ((splitLinesJs a).2 ++ b)).1,
        (splitLinesJs ((splitLinesJs a).2 ++ b)).2) := by
  induction a with
  | nil => simp [splitLinesJs]
  | cons ch a ih =>
    by_cases hch : ch = '\n'
    · subst hch
      simp [splitLinesJs, ih, List.cons_append]
    · cases hFa : (splitLinesJs a).1 with
      | nil =>
        cases hFb : (splitLinesJs ((splitLinesJs a).2 ++ b)).1 with
        | nil => simp [splitLinesJs, hch, ih, hFa, hFb, List.cons_append]
        | cons l ls => simp [splitLinesJs, hch, ih, hFa, hFb, List.cons_append]
      | cons l ls => simp [splitLinesJs, hch, ih, hFa, List.cons_append]

theorem dropWhile_dropWhile {α : Type} (p : α → Bool) (l : List α) :
    (l.dropWhile p).dropWhile p = l.dropWhile p := by
  induction l with
  | nil => rfl
  | cons a t ih =>
    by_cases hp : p a
    · simp [List.dropWhile_cons, hp, ih]
    · simp [List.dropWhile_cons, hp]

theorem dropWhile_head_false {α : Type} (p : α → Bool) (l : List α) {a : α} {t : List α}
    (h : l.dropWhile p = a :: t) : p a = false := by
  induction l with
  | nil => simp at h
  | cons b l2 ih =>
    rw [List.dropWhile_cons] at h
    split at h
    · exact ih h
    · rename_i hpb
      cases h
      simp only [Bool.not_eq_true] at hpb
      exact hpb

theorem trimJs_idem (cs : List Char) : trimJs (trimJs cs) = trimJs cs := by
  unfold trimJs
  have hvu : ((cs.dropWhile isJsSpace).reverse.dropWhile isJsSpace).reverse <+:
      cs.dropWhile isJsSpace := by
    have h0 := List.reverse_prefix.mpr
      (List.dropWhile_suffix (l := (cs.dropWhile isJsSpace).reverse) isJsSpace)
    rwa [List.reverse_reverse] at h0
  have step1 :
      (((cs.dropWhile isJsSpace).reverse.dropWhile isJsSpace).reverse).dropWhile isJsSpace =
        ((cs.dropWhile isJsSpace).reverse.dropWhile isJsSpace).reverse := by
    obtain ⟨rem, hrem⟩ := hvu
    cases hv : ((cs.dropWhile isJsSpace).reverse.dropWhile isJsSpace).reverse with
    | nil => rfl
    | cons a t =>
      rw [hv] at hrem
      have hhead : isJsSpace a = false :=
        dropWhile_head_false (t := t ++ rem) isJsSpace cs (by rw [← hrem]; rfl)
      rw [List.dropWhile_cons]
      simp [hhead]
  rw [step1, List.reverse_reverse, dropWhile_dropWhile]

theorem map_trim_filter (ls : List (List Char)) :
    ((ls.map trimJs).filter (fun l => decide (l ≠ []))).map trimJs =
      (ls.map trimJs).filter (fun l => decide (l ≠ [])) := by
  induction ls with
  | nil => rfl
  | cons x ls ih =>
    simp only [List.map_cons, List.filter_cons]
    by_cases hx : trimJs x = []
    · rw [if_neg (by simp [hx])]
      exact ih
    · rw [if_pos (by simp [hx])]
      rw [List.map_cons, trimJs_idem, ih]

theorem refLines_append (a b : List Char) :
    refLines (a ++ b) =
      (((splitLinesJs a).1.map trimJs).filter (fun l => decide (l ≠ []))) ++
        refLines ((splitLinesJs a).2 ++ b) := by
  unfold refLines
  rw [splitLinesJs_append]
  simp [List.filter_append, List.append_assoc]

end LineLemmas

/-! ## The chunk pipeline against the whole-stream reference -/

theorem processChunks_eq (chunks : List (List Nat)) :
    ∀ (pend : List Nat) (buf : List Char) (s : List Char),
    pendingOnly pend → '\n' ∉ buf → pend ++ chunks.flatten = utf8Encode s →
    (processChunks pend buf chunks).map trimJs = refLines (buf ++ s) := by
  induction chunks with
  | nil =>
    intro pend buf s hpend hbuf h
    simp only [List.flatten_nil, List.append_nil] at h
    subst h
    have htot := decodeLoop_utf8Encode s
    have hnil : s = [] := by
      have := hpend
      unfold pendingOnly at this
      rw [htot] at this
      cases s with
      | nil => rfl
      | cons c s2 =>
        cases this
    subst hnil
    unfold processChunks refLines
    rw [List.append_nil, splitLinesJs_of_no_newline hbuf]
    by_cases hb : trimJs buf = []
    · simp [hb]
    · simp [hb]
  | cons ch chs ih =>
    intro pend buf s hpend hbuf h
    rw [List.flatten_cons, ← List.append_assoc] at h
    obtain ⟨s1, s2, hs, h1, h2, h3, h4⟩ := decodeLoop_sound s (pend ++ ch) chs.flatten h
    show (((splitLinesJs (buf ++ (decodeLoop (pend ++ ch)).1)).1.map trimJs).filter
        (fun l => decide (l ≠ [])) ++
          processChunks (decodeLoop (pend ++ ch)).2
            (splitLinesJs (buf ++ (decodeLoop (pend ++ ch)).1)).2 chs).map trimJs =
      refLines (buf ++ s)
    rw [List.map_append, map_trim_filter, h1]
    have hihr := ih (decodeLoop (pend ++ ch)).2
      (splitLinesJs (buf ++ s1)).2 s2 h3 (splitLinesJs_snd_no_newline _) h4
    rw [hihr, hs, ← List.append_assoc, refLines_append (buf ++ s1) s2]
/-- C8.  Chunk-boundary invariance: for every byte stream that is the UTF-8
encoding of some character stream and every way of cutting it into chunks
(mid-line and mid-multibyte-character cuts included), the decode-and-split
loop with its final flush emits — up to the trim applied before
`JSON.parse` — exactly the non-empty trimmed `"\n"`-separated segments of
the whole stream, each once; in particular any two chunkings of the same
bytes emit the same line sequence. -/
theorem c8_chunk_boundary_invariance (chunks : List (List Nat)) (s : List Char)
    (h : chunks.flatten = utf8Encode s) :
    (processChunks [] [] chunks).map trimJs = refLines s ∧
    (processChunks [] [] chunks).map trimJs =
      (processChunks [] [] [utf8Encode s]).map trimJs := by
  have h1 : (processChunks [] [] chunks).map trimJs = refLines s := by
    have := processChunks_eq chunks [] [] s (by simp [pendingOnly]) (by simp)
      (by simpa using h)
    simpa using this
  have h2 : (processChunks [] [] [utf8Encode s]).map trimJs = refLines s := by
    have := processChunks_eq [utf8Encode s] [] [] s (by simp [pendingOnly]) (by simp)
      (by simp)
    simpa using this
  exact ⟨h1, h1.trans h2.symm⟩

/-- Witness for C8: the stream "é1\nab" chunked with the two-byte
"é" split across chunks and the second line split byte-by-byte. -/
theorem c8_chunk_boundary_invariance_witness :
    c8Chunks.flatten = utf8Encode c8Chars ∧
    (processChunks [] [] c8Chunks).map trimJs = refLines c8Chars :=
  ⟨by decide, (c8_chunk_boundary_invariance c8Chunks c8Chars (by decide)).1⟩

end MacCleaner
